import Mathlib

/-!
Shallow embedding of src/sort/mod.rs: bubble_sort, insertion_sort and
merge_sort over a generic element type with a boolean comparison function
(the Rust code is generic over T with a PartialOrd bound; the comparison
calls are modelled by explicit functions gt, lt : alpha to alpha to Bool).
Slices are modelled as lists; in-place mutation becomes a returned list.
A Rust panic is modelled by the value none of an Option result.
-/

namespace Dsa

open scoped List

variable {α : Type} {β : Type}

/-- One pass of the inner for-loop of bubble_sort (mod.rs lines 19 to 24),
carrying the element currently sitting at index i. At each step the code
compares list at i with list at i plus one and swaps on gt. The pair holds
the rewritten list and the swapped flag of the pass. -/
def bubblePassGo (gt : α → α → Bool) (x : α) : List α → List α × Bool
  | [] => ([x], false)
  | y :: t =>
    if gt x y then
      let r := bubblePassGo gt x t
      (y :: r.1, true)
    else
      let r := bubblePassGo gt y t
      (x :: r.1, r.2)

/-- One full pass of bubble_sort, i from 0 to len minus 2 (mod.rs line 19). -/
def bubblePass (gt : α → α → Bool) : List α → List α × Bool
  | [] => ([], false)
  | x :: t => bubblePassGo gt x t

/-- Number of inverted pairs of the list under gt: pairs at positions p less
than q whose elements satisfy gt. Used as fuel for the unbounded Rust loop of
bubble_sort: every pass that performs a swap strictly decreases this count
when gt is asymmetric, so inversions plus one passes always suffice. -/
def inversions (gt : α → α → Bool) : List α → Nat
  | [] => 0
  | a :: t => t.countP (gt a) + inversions gt t

/-- The outer loop of bubble_sort (mod.rs lines 17 to 30): run a pass, stop
with the current list when the pass made no swap, else repeat. The fuel
argument makes the unbounded Rust loop a total function; none means the
fuel ran out, i.e. the loop would still be running. -/
def bubbleLoop (gt : α → α → Bool) : Nat → List α → Option (List α)
  | 0, _ => none
  | fuel + 1, l =>
    let p := bubblePass gt l
    if p.2 then bubbleLoop gt fuel p.1 else some p.1

/-- Model of bubble_sort (mod.rs lines 15 to 31). On the empty slice the
expression list.len() - 1 at line 19 underflows (usize), so the Rust call
panics: modelled by none. Otherwise the loop runs until a pass makes no
swap; inversions gt l plus one units of fuel are enough for every
comparison function the claims use. -/
def bubble_sort (gt : α → α → Bool) (l : List α) : Option (List α) :=
  if l.length = 0 then none
  else bubbleLoop gt (inversions gt l + 1) l

/-- The inner while-loop of insertion_sort (mod.rs lines 93 to 96) seen on
the reversed sorted prefix: the moving element x walks left past every
element e with gt e x and is placed at the first e with gt e x false. The
argument list is the prefix reversed (nearest element first) and the result
is the new prefix, reversed. -/
def insertRev (gt : α → α → Bool) : List α → α → List α
  | [], x => [x]
  | e :: rest, x =>
    if gt e x then e :: insertRev gt rest x else x :: e :: rest

/-- Model of insertion_sort (mod.rs lines 82 to 98): for i from 1 to len
minus 1 insert the element at i into the sorted prefix on its left. The
fold state is the sorted prefix kept in reversed order. -/
def insertion_sort (gt : α → α → Bool) (l : List α) : List α :=
  (l.foldl (insertRev gt) []).reverse

/-- Index-level model of the inner while-loop of insertion_sort (mod.rs
lines 93 to 96) with every slice access explicit: counter j, reads of the
elements at j minus 1 and j, the swap, and the decrement. A read out of
bounds would be a panic, modelled by none; the guard j greater than zero is
the pattern match on j. -/
def insInner (gt : α → α → Bool) : List α → Nat → Option (List α)
  | l, 0 => some l
  | l, j + 1 =>
    match l.get? j, l.get? (j + 1) with
    | some a, some b =>
      if gt a b then insInner gt ((l.set j b).set (j + 1) a) j else some l
    | _, _ => none

/-- Index-level model of insertion_sort (mod.rs lines 82 to 98): the outer
for-loop over i in 1..len, each iteration running the inner loop starting
at j equal to i. -/
def insertion_sort_idx (gt : α → α → Bool) (l : List α) : Option (List α) :=
  (List.range' 1 (l.length - 1)).foldlM (fun acc i => insInner gt acc i) l

/-- The merge loop of merge_sort (mod.rs lines 119 to 135): while both
halves have a head, take the left head when lt holds of the two heads and
the right head otherwise (ties included), then drain the leftovers of the
half that still has elements. -/
def merge (lt : α → α → Bool) : List α → List α → List α
  | [], r => r
  | l, [] => l
  | a :: ls, b :: rs =>
    if lt a b then a :: merge lt ls (b :: rs) else b :: merge lt (a :: ls) rs
termination_by l r => l.length + r.length
decreasing_by
  · simp
  · simp

/-- Model of merge_sort (mod.rs lines 101 to 141): lists of length below two
are returned unchanged; otherwise the list is split at len / 2, both halves
are sorted recursively and merged. -/
def merge_sort (lt : α → α → Bool) (l : List α) : List α :=
  if h : l.length < 2 then l
  else
    merge lt (merge_sort lt (l.take (l.length / 2)))
      (merge_sort lt (l.drop (l.length / 2)))
termination_by l.length
decreasing_by
  · simp
    omega
  · simp
    omega

/-- Boolean strict greater-than of a linear order, the comparison the Rust
code writes as list at i greater than list at i plus one. -/
def gtb [LinearOrder α] (a b : α) : Bool := decide (b < a)

/-- Boolean strict less-than of a linear order, the comparison the Rust
merge loop writes as l less than r. -/
def ltb [LinearOrder α] (a b : α) : Bool := decide (a < b)

/-- Sortedness exactly as the spec states it: every element is at most its
right neighbour. -/
def sortedAdj [Preorder α] (l : List α) : Prop :=
  ∀ (i : Nat) (h : i + 1 < l.length),
    l.get ⟨i, Nat.lt_of_succ_lt h⟩ ≤ l.get ⟨i + 1, h⟩

/-! Lemmas about the bubble pass. -/

theorem bubblePassGo_perm (gt : α → α → Bool) (x : α) (t : List α) :
    (bubblePassGo gt x t).1 ~ x :: t := by
  induction t generalizing x with
  | nil => simp [bubblePassGo]
  | cons y t ih =>
    cases h : gt x y with
    | true =>
      simp only [bubblePassGo, h, if_true]
      exact ((ih x).cons y).trans (List.Perm.swap x y t)
    | false =>
      simp only [bubblePassGo, h, Bool.false_eq_true, if_false]
      exact (ih y).cons x

theorem bubblePass_perm (gt : α → α → Bool) (l : List α) :
    (bubblePass gt l).1 ~ l := by
  cases l with
  | nil => simp [bubblePass]
  | cons x t => exact bubblePassGo_perm gt x t

theorem bubblePassGo_of_false (gt : α → α → Bool) (x : α) (t : List α)
    (h : (bubblePassGo gt x t).2 = false) : (bubblePassGo gt x t).1 = x :: t := by
  induction t generalizing x with
  | nil => simp [bubblePassGo]
  | cons y t ih =>
    cases hxy : gt x y with
    | true => simp [bubblePassGo, hxy] at h
    | false =>
      simp only [bubblePassGo, hxy, Bool.false_eq_true, if_false] at h ⊢
      rw [ih y h]

theorem bubblePass_of_false (gt : α → α → Bool) (l : List α)
    (h : (bubblePass gt l).2 = false) : (bubblePass gt l).1 = l := by
  cases l with
  | nil => simp [bubblePass]
  | cons x t => exact bubblePassGo_of_false gt x t h

theorem bubblePassGo_false_chain (gt : α → α → Bool) (x : α) (t : List α)
    (h : (bubblePassGo gt x t).2 = false) :
    List.Chain (fun a b => gt a b = false) x t := by
  induction t generalizing x with
  | nil => exact List.Chain.nil
  | cons y t ih =>
    cases hxy : gt x y with
    | true => simp [bubblePassGo, hxy] at h
    | false =>
      simp only [bubblePassGo, hxy, Bool.false_eq_true, if_false] at h
      exact List.Chain.cons hxy (ih y h)

theorem bubblePassGo_of_chain (gt : α → α → Bool) (x : α) (t : List α)
    (h : List.Chain (fun a b => gt a b = false) x t) :
    bubblePassGo gt x t = (x :: t, false) := by
  induction t generalizing x with
  | nil => simp [bubblePassGo]
  | cons y t ih =>
    rcases h with _ | ⟨hxy, hyt⟩
    simp [bubblePassGo, hxy, ih y hyt]

theorem bubblePassGo_inv (gt : α → α → Bool)
    (hA : ∀ a b, gt a b = true → gt b a = false) (x : α) (t : List α) :
    inversions gt (bubblePassGo gt x t).1
      + (if (bubblePassGo gt x t).2 = true then 1 else 0) ≤ inversions gt (x :: t) := by
  induction t generalizing x with
  | nil => simp [bubblePassGo, inversions]
  | cons y t ih =>
    cases h : gt x y with
    | true =>
      have hc : List.countP (gt y) (bubblePassGo gt x t).1 = List.countP (gt y) (x :: t) :=
        (bubblePassGo_perm gt x t).countP_eq (gt y)
      have hyx : gt y x = false := hA x y h
      have ihx := ih x
      cases hs : (bubblePassGo gt x t).2 <;>
        simp [bubblePassGo, h, inversions, List.countP_cons, hc, hyx, hs] at ihx ⊢ <;>
        omega
    | false =>
      have hc : List.countP (gt x) (bubblePassGo gt y t).1 = List.countP (gt x) (y :: t) :=
        (bubblePassGo_perm gt y t).countP_eq (gt x)
      have ihy := ih y
      cases hs : (bubblePassGo gt y t).2 <;>
        simp [bubblePassGo, h, inversions, List.countP_cons, hc, hs] at ihy ⊢ <;>
        omega

theorem bubblePass_inv (gt : α → α → Bool)
    (hA : ∀ a b, gt a b = true → gt b a = false) (l : List α) :
    inversions gt (bubblePass gt l).1
      + (if (bubblePass gt l).2 = true then 1 else 0) ≤ inversions gt l := by
  cases l with
  | nil => simp [bubblePass, inversions]
  | cons x t => exact bubblePassGo_inv gt hA x t

/-! Lemmas about the bubble loop and bubble_sort. -/

theorem bubbleLoop_some (gt : α → α → Bool)
    (hA : ∀ a b, gt a b = true → gt b a = false) :
    ∀ (fuel : Nat) (l : List α), inversions gt l < fuel →
      ∃ out, bubbleLoop gt fuel l = some out := by
  intro fuel
  induction fuel with
  | zero => intro l h; omega
  | succ n ih =>
    intro l h
    cases hs : (bubblePass gt l).2 with
    | false => exact ⟨(bubblePass gt l).1, by simp [bubbleLoop, hs]⟩
    | true =>
      have hlt : inversions gt (bubblePass gt l).1 < n := by
        have := bubblePass_inv gt hA l
        rw [hs] at this
        simp at this
        omega
      obtain ⟨out, hout⟩ := ih (bubblePass gt l).1 hlt
      exact ⟨out, by simp [bubbleLoop, hs, hout]⟩

theorem bubbleLoop_post (gt : α → α → Bool) :
    ∀ (fuel : Nat) (l out : List α), bubbleLoop gt fuel l = some out →
      out ~ l ∧ (bubblePass gt out).2 = false := by
  intro fuel
  induction fuel with
  | zero => intro l out h; simp [bubbleLoop] at h
  | succ n ih =>
    intro l out h
    cases hs : (bubblePass gt l).2 with
    | true =>
      simp only [bubbleLoop, hs, if_true] at h
      obtain ⟨hperm, hfix⟩ := ih (bubblePass gt l).1 out h
      exact ⟨hperm.trans (bubblePass_perm gt l), hfix⟩
    | false =>
      simp only [bubbleLoop, hs, Bool.false_eq_true, if_false, Option.some_inj] at h
      have hid := bubblePass_of_false gt l hs
      subst h
      rw [hid]
      exact ⟨List.Perm.refl l, hs⟩

theorem bubble_sort_post (gt : α → α → Bool) (l out : List α)
    (h : bubble_sort gt l = some out) :
    out ~ l ∧ (bubblePass gt out).2 = false := by
  unfold bubble_sort at h
  by_cases hl : l.length = 0
  · simp [hl] at h
  · simp only [hl, if_false] at h
    exact bubbleLoop_post gt (inversions gt l + 1) l out h

theorem bubble_sort_some (gt : α → α → Bool)
    (hA : ∀ a b, gt a b = true → gt b a = false) (l : List α) (hne : l ≠ []) :
    ∃ out, bubble_sort gt l = some out := by
  have hlen : ¬ l.length = 0 := by simpa using hne
  obtain ⟨out, hout⟩ := bubbleLoop_some gt hA (inversions gt l + 1) l (Nat.lt_succ_self _)
  exact ⟨out, by simp only [bubble_sort, hlen, if_false]; exact hout⟩

/-! Lemmas tying the boolean comparators to a linear order. -/

theorem gtb_asymm [LinearOrder α] :
    ∀ a b : α, gtb a b = true → gtb b a = false := by
  intro a b h
  simp only [gtb, decide_eq_true_eq] at h
  simp only [gtb, decide_eq_false_iff_not]
  exact lt_asymm h

theorem gtb_false_iff [LinearOrder α] (a b : α) : gtb a b = false ↔ a ≤ b := by
  simp [gtb, not_lt]

theorem bubblePass_false_sorted [LinearOrder α] (l : List α)
    (h : (bubblePass gtb l).2 = false) : List.Pairwise (· ≤ ·) l := by
  cases l with
  | nil => exact List.Pairwise.nil
  | cons x t =>
    have hch := bubblePassGo_false_chain gtb x t h
    have hch2 : List.Chain (· ≤ ·) x t :=
      hch.imp (fun a b hab => (gtb_false_iff a b).mp hab)
    exact List.chain_iff_pairwise.mp hch2

theorem bubblePass_of_sorted [LinearOrder α] (l : List α)
    (h : List.Pairwise (· ≤ ·) l) : bubblePass gtb l = (l, false) := by
  cases l with
  | nil => simp [bubblePass]
  | cons x t =>
    have hch : List.Chain (· ≤ ·) x t := List.chain_iff_pairwise.mpr h
    have hch2 : List.Chain (fun a b => gtb a b = false) x t :=
      hch.imp (fun a b hab => (gtb_false_iff a b).mpr hab)
    exact bubblePassGo_of_chain gtb x t hch2

theorem bubble_sort_sorted [LinearOrder α] (l out : List α)
    (h : bubble_sort gtb l = some out) : List.Pairwise (· ≤ ·) out :=
  bubblePass_false_sorted out (bubble_sort_post gtb l out h).2

theorem bubble_sort_of_sorted [LinearOrder α] (l : List α)
    (hs : List.Pairwise (· ≤ ·) l) (hne : l ≠ []) : bubble_sort gtb l = some l := by
  have hlen : ¬ l.length = 0 := by simpa using hne
  have hp := bubblePass_of_sorted l hs
  simp [bubble_sort, hlen, bubbleLoop, hp]

/-! Lemmas about insertion_sort. -/

theorem insertRev_perm (gt : α → α → Bool) :
    ∀ (s : List α) (x : α), insertRev gt s x ~ x :: s := by
  intro s
  induction s with
  | nil => intro x; simp [insertRev]
  | cons e rest ih =>
    intro x
    cases h : gt e x with
    | true =>
      simp only [insertRev, h, if_true]
      exact ((ih x).cons e).trans (List.Perm.swap x e rest)
    | false =>
      simp [insertRev, h]

theorem foldl_insertRev_perm (gt : α → α → Bool) :
    ∀ (l s : List α), l.foldl (insertRev gt) s ~ l ++ s := by
  intro l
  induction l with
  | nil => intro s; simp
  | cons x l ih =>
    intro s
    calc (x :: l).foldl (insertRev gt) s
        = l.foldl (insertRev gt) (insertRev gt s x) := rfl
      _ ~ l ++ insertRev gt s x := ih (insertRev gt s x)
      _ ~ l ++ (x :: s) := (insertRev_perm gt s x).append_left l
      _ ~ x :: (l ++ s) := List.perm_middle

theorem insertion_sort_perm (gt : α → α → Bool) (l : List α) :
    insertion_sort gt l ~ l := by
  unfold insertion_sort
  calc (l.foldl (insertRev gt) []).reverse
      ~ l.foldl (insertRev gt) [] := List.reverse_perm _
    _ ~ l ++ [] := foldl_insertRev_perm gt l []
    _ = l := List.append_nil l

theorem insertRev_pairwise [LinearOrder α] :
    ∀ (s : List α) (x : α), List.Pairwise (· ≥ ·) s →
      List.Pairwise (· ≥ ·) (insertRev gtb s x) := by
  intro s
  induction s with
  | nil => intro x _; simp [insertRev]
  | cons e rest ih =>
    intro x h
    rw [List.pairwise_cons] at h
    obtain ⟨he, hrest⟩ := h
    cases hge : gtb e x with
    | true =>
      have hlt : x < e := by simpa [gtb] using hge
      simp only [insertRev, hge, if_true]
      rw [List.pairwise_cons]
      refine ⟨fun b hb => ?_, ih x hrest⟩
      rcases List.mem_cons.mp ((insertRev_perm gtb rest x).mem_iff.mp hb) with hb2 | hb2
      · subst hb2; exact le_of_lt hlt
      · exact he b hb2
    | false =>
      have hle : e ≤ x := (gtb_false_iff e x).mp hge
      simp only [insertRev, hge, Bool.false_eq_true, if_false]
      rw [List.pairwise_cons]
      refine ⟨fun b hb => ?_, List.pairwise_cons.mpr ⟨he, hrest⟩⟩
      rcases List.mem_cons.mp hb with hb2 | hb2
      · subst hb2; exact hle
      · exact le_trans (he b hb2) hle

theorem foldl_insertRev_pairwise [LinearOrder α] :
    ∀ (l s : List α), List.Pairwise (· ≥ ·) s →
      List.Pairwise (· ≥ ·) (l.foldl (insertRev gtb) s) := by
  intro l
  induction l with
  | nil => intro s h; exact h
  | cons x l ih => intro s h; exact ih (insertRev gtb s x) (insertRev_pairwise s x h)

theorem insertion_sort_sorted [LinearOrder α] (l : List α) :
    List.Pairwise (· ≤ ·) (insertion_sort gtb l) := by
  unfold insertion_sort
  rw [List.pairwise_reverse]
  exact foldl_insertRev_pairwise l [] List.Pairwise.nil

/-! Lemmas about merge and merge_sort. -/

theorem merge_perm (lt : α → α → Bool) :
    ∀ (l r : List α), merge lt l r ~ l ++ r := by
  intro l
  induction l with
  | nil => intro r; simp [merge]
  | cons a ls ihl =>
    intro r
    induction r with
    | nil => simp [merge]
    | cons b rs ihr =>
      rw [merge]
      cases h : lt a b with
      | true =>
        simp only [h, if_true, List.cons_append, List.perm_cons]
        exact ihl (b :: rs)
      | false =>
        simp only [h, Bool.false_eq_true, if_false]
        exact (ihr.cons b).trans List.perm_middle.symm

theorem merge_length (lt : α → α → Bool) (l r : List α) :
    (merge lt l r).length = l.length + r.length := by
  have := (merge_perm lt l r).length_eq
  simpa using this

theorem merge_pairwise [LinearOrder α] :
    ∀ (l r : List α), List.Pairwise (· ≤ ·) l → List.Pairwise (· ≤ ·) r →
      List.Pairwise (· ≤ ·) (merge ltb l r) := by
  intro l
  induction l with
  | nil => intro r _ hr; simpa [merge] using hr
  | cons a ls ihl =>
    intro r
    induction r with
    | nil => intro hl _; simpa [merge] using hl
    | cons b rs ihr =>
      intro hl hr
      rw [List.pairwise_cons] at hl hr
      obtain ⟨ha, hls⟩ := hl
      obtain ⟨hb, hrs⟩ := hr
      rw [merge]
      cases h : ltb a b with
      | true =>
        have hab : a < b := by simpa [ltb] using h
        simp only [h, if_true]
        rw [List.pairwise_cons]
        refine ⟨fun c hc => ?_, ihl (b :: rs) hls (List.pairwise_cons.mpr ⟨hb, hrs⟩)⟩
        rcases List.mem_append.mp ((merge_perm ltb ls (b :: rs)).mem_iff.mp hc) with hc2 | hc2
        · exact ha c hc2
        · rcases List.mem_cons.mp hc2 with hc3 | hc3
          · subst hc3; exact le_of_lt hab
          · exact le_trans (le_of_lt hab) (hb c hc3)
      | false =>
        have hba : b ≤ a := by simpa [ltb, not_lt] using h
        simp only [h, Bool.false_eq_true, if_false]
        rw [List.pairwise_cons]
        refine ⟨fun c hc => ?_, ihr (List.pairwise_cons.mpr ⟨ha, hls⟩) hrs⟩
        rcases List.mem_append.mp ((merge_perm ltb (a :: ls) rs).mem_iff.mp hc) with hc2 | hc2
        · rcases List.mem_cons.mp hc2 with hc3 | hc3
          · subst hc3; exact hba
          · exact le_trans hba (ha c hc3)
        · exact hb c hc2

theorem merge_sort_perm_aux (lt : α → α → Bool) :
    ∀ (n : Nat) (l : List α), l.length ≤ n → merge_sort lt l ~ l := by
  intro n
  induction n with
  | zero =>
    intro l h
    have : l = [] := List.eq_nil_of_length_eq_zero (Nat.le_zero.mp h)
    subst this
    rw [merge_sort]
    simp
  | succ n ih =>
    intro l h
    rw [merge_sort]
    by_cases hlen : l.length < 2
    · rw [dif_pos hlen]
    · rw [dif_neg hlen]
      have h2 : 2 ≤ l.length := Nat.le_of_not_lt hlen
      have htake : (l.take (l.length / 2)).length ≤ n := by
        rw [List.length_take]
        omega
      have hdrop : (l.drop (l.length / 2)).length ≤ n := by
        rw [List.length_drop]
        omega
      calc merge lt (merge_sort lt (l.take (l.length / 2)))
              (merge_sort lt (l.drop (l.length / 2)))
          ~ merge_sort lt (l.take (l.length / 2))
              ++ merge_sort lt (l.drop (l.length / 2)) := merge_perm lt _ _
        _ ~ l.take (l.length / 2) ++ l.drop (l.length / 2) :=
            List.Perm.append (ih _ htake) (ih _ hdrop)
        _ = l := List.take_append_drop _ l

theorem merge_sort_perm (lt : α → α → Bool) (l : List α) : merge_sort lt l ~ l :=
  merge_sort_perm_aux lt l.length l le_rfl

theorem merge_sort_length (lt : α → α → Bool) (l : List α) :
    (merge_sort lt l).length = l.length :=
  (merge_sort_perm lt l).length_eq

theorem merge_sort_sorted_aux [LinearOrder α] :
    ∀ (n : Nat) (l : List α), l.length ≤ n →
      List.Pairwise (· ≤ ·) (merge_sort ltb l) := by
  intro n
  induction n with
  | zero =>
    intro l h
    have : l = [] := List.eq_nil_of_length_eq_zero (Nat.le_zero.mp h)
    subst this
    rw [merge_sort]
    simp
  | succ n ih =>
    intro l h
    rw [merge_sort]
    by_cases hlen : l.length < 2
    · rw [dif_pos hlen]
      match l, hlen with
      | [], _ => exact List.Pairwise.nil
      | [a], _ => simp
    · rw [dif_neg hlen]
      have h2 : 2 ≤ l.length := Nat.le_of_not_lt hlen
      have htake : (l.take (l.length / 2)).length ≤ n := by
        rw [List.length_take]
        omega
      have hdrop : (l.drop (l.length / 2)).length ≤ n := by
        rw [List.length_drop]
        omega
      exact merge_pairwise _ _ (ih _ htake) (ih _ hdrop)

theorem merge_sort_sorted [LinearOrder α] (l : List α) :
    List.Pairwise (· ≤ ·) (merge_sort ltb l) :=
  merge_sort_sorted_aux l.length l le_rfl

/-! Stability lemmas: the subsequence of elements satisfying a predicate p is
unchanged by bubble_sort and insertion_sort whenever the comparison never
holds between two elements that both satisfy p (elements with equal keys are
never swapped). -/

theorem bubblePassGo_filter (gt : α → α → Bool) (p : α → Bool)
    (hcomp : ∀ a b, gt a b = true → p a = true → p b = true → False) :
    ∀ (x : α) (t : List α),
      List.filter p (bubblePassGo gt x t).1 = List.filter p (x :: t) := by
  intro x t
  induction t generalizing x with
  | nil => simp [bubblePassGo]
  | cons y t ih =>
    cases h : gt x y with
    | true =>
      have hnot : ¬ (p x = true ∧ p y = true) := fun ⟨hx, hy⟩ => hcomp x y h hx hy
      simp only [bubblePassGo, h, if_true]
      cases hx : p x with
      | true =>
        have hy : p y = false := by
          cases hy : p y with
          | true => exact absurd ⟨hx, hy⟩ hnot
          | false => rfl
        simp [List.filter_cons, hx, hy, ih x]
      | false => simp [List.filter_cons, hx, ih x]
    | false =>
      simp only [bubblePassGo, h, Bool.false_eq_true, if_false]
      cases hx : p x with
      | true => simp [List.filter_cons, hx, ih y]
      | false => simp [List.filter_cons, hx, ih y]

theorem bubblePass_filter (gt : α → α → Bool) (p : α → Bool)
    (hcomp : ∀ a b, gt a b = true → p a = true → p b = true → False) (l : List α) :
    List.filter p (bubblePass gt l).1 = List.filter p l := by
  cases l with
  | nil => simp [bubblePass]
  | cons x t => exact bubblePassGo_filter gt p hcomp x t

theorem bubbleLoop_filter (gt : α → α → Bool) (p : α → Bool)
    (hcomp : ∀ a b, gt a b = true → p a = true → p b = true → False) :
    ∀ (fuel : Nat) (l out : List α), bubbleLoop gt fuel l = some out →
      List.filter p out = List.filter p l := by
  intro fuel
  induction fuel with
  | zero => intro l out h; simp [bubbleLoop] at h
  | succ n ih =>
    intro l out h
    cases hs : (bubblePass gt l).2 with
    | true =>
      simp only [bubbleLoop, hs, if_true] at h
      rw [ih (bubblePass gt l).1 out h]
      exact bubblePass_filter gt p hcomp l
    | false =>
      simp only [bubbleLoop, hs, Bool.false_eq_true, if_false, Option.some_inj] at h
      subst h
      exact bubblePass_filter gt p hcomp l

theorem bubble_sort_filter (gt : α → α → Bool) (p : α → Bool)
    (hcomp : ∀ a b, gt a b = true → p a = true → p b = true → False)
    (l out : List α) (h : bubble_sort gt l = some out) :
    List.filter p out = List.filter p l := by
  unfold bubble_sort at h
  by_cases hl : l.length = 0
  · simp [hl] at h
  · simp only [hl, if_false] at h
    exact bubbleLoop_filter gt p hcomp (inversions gt l + 1) l out h

theorem insertRev_filter_pos (gt : α → α → Bool) (p : α → Bool)
    (hcomp : ∀ a b, gt a b = true → p a = true → p b = true → False) :
    ∀ (s : List α) (x : α), p x = true →
      List.filter p (insertRev gt s x) = x :: List.filter p s := by
  intro s
  induction s with
  | nil => intro x hx; simp [insertRev, List.filter_cons, hx]
  | cons e rest ih =>
    intro x hx
    cases h : gt e x with
    | true =>
      have he : p e = false := by
        cases he : p e with
        | true => exact absurd he (fun he => hcomp e x h he hx)
        | false => rfl
      simp only [insertRev, h, if_true]
      simp [List.filter_cons, he, ih x hx]
    | false =>
      simp only [insertRev, h, Bool.false_eq_true, if_false]
      simp [List.filter_cons, hx]

theorem insertRev_filter_neg (gt : α → α → Bool) (p : α → Bool) :
    ∀ (s : List α) (x : α), p x = false →
      List.filter p (insertRev gt s x) = List.filter p s := by
  intro s
  induction s with
  | nil => intro x hx; simp [insertRev, List.filter_cons, hx]
  | cons e rest ih =>
    intro x hx
    cases h : gt e x with
    | true =>
      simp only [insertRev, h, if_true]
      cases he : p e <;> simp [List.filter_cons, he, ih x hx]
    | false =>
      simp only [insertRev, h, Bool.false_eq_true, if_false]
      simp [List.filter_cons, hx]

theorem foldl_insertRev_filter (gt : α → α → Bool) (p : α → Bool)
    (hcomp : ∀ a b, gt a b = true → p a = true → p b = true → False) :
    ∀ (l s : List α),
      (List.filter p (l.foldl (insertRev gt) s)).reverse
        = (List.filter p s).reverse ++ List.filter p l := by
  intro l
  induction l with
  | nil => intro s; simp
  | cons x l ih =>
    intro s
    have hstep : List.foldl (insertRev gt) s (x :: l)
        = List.foldl (insertRev gt) (insertRev gt s x) l := rfl
    rw [hstep, ih (insertRev gt s x)]
    cases hx : p x with
    | true =>
      rw [insertRev_filter_pos gt p hcomp s x hx]
      simp [List.filter_cons, hx]
    | false =>
      rw [insertRev_filter_neg gt p s x hx]
      simp [List.filter_cons, hx]

theorem insertion_sort_filter (gt : α → α → Bool) (p : α → Bool)
    (hcomp : ∀ a b, gt a b = true → p a = true → p b = true → False) (l : List α) :
    List.filter p (insertion_sort gt l) = List.filter p l := by
  unfold insertion_sort
  rw [List.filter_reverse]
  simpa using foldl_insertRev_filter gt p hcomp l []

/-! Totality of the index-level model of insertion_sort: every slice access
is in bounds, so the function never returns none. -/

theorem insInner_some (gt : α → α → Bool) :
    ∀ (j : Nat) (l : List α), j < l.length →
      ∃ out, insInner gt l j = some out ∧ out.length = l.length := by
  intro j
  induction j with
  | zero => intro l _; exact ⟨l, rfl, rfl⟩
  | succ c ih =>
    intro l h
    have hc : c < l.length := Nat.lt_of_succ_lt h
    have ha : l.get? c = some l[c] := by
      rw [List.get?_eq_getElem?]
      exact List.getElem?_eq_getElem hc
    have hb : l.get? (c + 1) = some l[c + 1] := by
      rw [List.get?_eq_getElem?]
      exact List.getElem?_eq_getElem h
    cases hgt : gt l[c] l[c + 1] with
    | false =>
      refine ⟨l, ?_, rfl⟩
      rw [insInner, ha, hb]
      simp [hgt]
    | true =>
      have hlen : ((l.set c l[c + 1]).set (c + 1) l[c]).length = l.length := by simp
      obtain ⟨out, hout, holen⟩ :=
        ih ((l.set c l[c + 1]).set (c + 1) l[c]) (by rw [hlen]; exact hc)
      refine ⟨out, ?_, by rw [holen, hlen]⟩
      rw [insInner, ha, hb]
      simp only [hgt, if_true]
      exact hout

theorem foldlM_insInner_some (gt : α → α → Bool) :
    ∀ (is : List Nat) (acc : List α), (∀ i ∈ is, i < acc.length) →
      ∃ out, (is.foldlM (fun acc i => insInner gt acc i) acc) = some out
        ∧ out.length = acc.length := by
  intro is
  induction is with
  | nil => intro acc _; exact ⟨acc, rfl, rfl⟩
  | cons i is ih =>
    intro acc h
    obtain ⟨m, hm, hmlen⟩ := insInner_some gt i acc (h i (List.mem_cons_self i is))
    have hrest : ∀ j ∈ is, j < m.length := by
      intro j hj
      rw [hmlen]
      exact h j (List.mem_cons_of_mem i hj)
    obtain ⟨out, hout, holen⟩ := ih m hrest
    refine ⟨out, ?_, holen.trans hmlen⟩
    rw [List.foldlM_cons, hm]
    exact hout

theorem insertion_sort_idx_some (gt : α → α → Bool) (l : List α) :
    ∃ out, insertion_sort_idx gt l = some out := by
  obtain ⟨out, hout, _⟩ :=
    foldlM_insInner_some gt (List.range' 1 (l.length - 1)) l (by
      intro i hi
      rw [List.mem_range'_1] at hi
      omega)
  exact ⟨out, hout⟩

/-! Equivalence of the two insertion_sort models: the index-level model
computes exactly the structural model, and in particular never panics. -/

theorem insInner_eq_insertRev (gt : α → α → Bool) :
    ∀ (P : List α) (x : α) (S : List α),
      insInner gt (P ++ x :: S) P.length
        = some ((insertRev gt P.reverse x).reverse ++ S) := by
  intro P
  induction P using List.reverseRecOn with
  | nil => intro x S; simp [insInner, insertRev]
  | append_singleton Q e ih =>
    intro x S
    have hlen : (Q ++ [e]).length = Q.length + 1 := by simp
    have hlist : (Q ++ [e]) ++ x :: S = Q ++ (e :: x :: S) := by simp
    rw [hlen, hlist, insInner]
    have hget1 : (Q ++ (e :: x :: S)).get? Q.length = some e := by
      rw [List.get?_eq_getElem?, List.getElem?_append_right (le_refl Q.length)]
      simp
    have hget2 : (Q ++ (e :: x :: S)).get? (Q.length + 1) = some x := by
      rw [List.get?_eq_getElem?,
        List.getElem?_append_right (Nat.le_succ_of_le (le_refl Q.length))]
      simp
    rw [hget1, hget2]
    have hrev : (Q ++ [e]).reverse = e :: Q.reverse := by simp
    cases hgt : gt e x with
    | true =>
      simp only [hgt, if_true]
      have hset : ((Q ++ (e :: x :: S)).set Q.length x).set (Q.length + 1) e
          = Q ++ (x :: e :: S) := by
        rw [List.set_append_right Q.length x (le_refl Q.length)]
        simp only [Nat.sub_self, List.set_cons_zero]
        rw [List.set_append_right (Q.length + 1) e (Nat.le_succ_of_le (le_refl Q.length))]
        simp
      rw [hset]
      have hQ : Q ++ (x :: e :: S) = Q ++ x :: (e :: S) := rfl
      rw [hQ, ih x (e :: S), hrev, insertRev]
      simp [hgt]
    | false =>
      simp only [hgt, Bool.false_eq_true, if_false]
      rw [hrev, insertRev]
      simp [hgt]

theorem foldlM_insInner_eq (gt : α → α → Bool) (l : List α) :
    ∀ (m i : Nat), i + m = l.length →
      List.foldlM (fun acc j => insInner gt acc j)
          (insertion_sort gt (l.take i) ++ l.drop i) (List.range' i m)
        = some (insertion_sort gt l) := by
  intro m
  induction m with
  | zero =>
    intro i h
    have hi : i = l.length := by omega
    subst hi
    simp [List.take_length, List.drop_length]
  | succ m ih =>
    intro i h
    have hi : i < l.length := by omega
    have hrange : List.range' i (m + 1) = i :: List.range' (i + 1) m :=
      List.range'_succ i m 1
    rw [hrange, List.foldlM_cons]
    have hdrop : l.drop i = l[i] :: l.drop (i + 1) := List.drop_eq_getElem_cons hi
    have hplen : (insertion_sort gt (l.take i)).length = i := by
      rw [(insertion_sort_perm gt (l.take i)).length_eq, List.length_take]
      omega
    have hstep : insInner gt (insertion_sort gt (l.take i) ++ l.drop i) i
        = some ((insertRev gt (insertion_sort gt (l.take i)).reverse l[i]).reverse
            ++ l.drop (i + 1)) := by
      have hA := insInner_eq_insertRev gt (insertion_sort gt (l.take i)) l[i] (l.drop (i + 1))
      rw [hplen] at hA
      rw [hdrop]
      exact hA
    rw [hstep]
    have hnew : (insertRev gt (insertion_sort gt (l.take i)).reverse l[i]).reverse
        = insertion_sort gt (l.take (i + 1)) := by
      have htake : l.take (i + 1) = l.take i ++ [l[i]] := by
        rw [List.take_succ, List.getElem?_eq_getElem hi]
        rfl
      have hrev2 : (insertion_sort gt (l.take i)).reverse
          = List.foldl (insertRev gt) [] (l.take i) := by
        unfold insertion_sort
        exact List.reverse_reverse _
      rw [htake, hrev2]
      show (insertRev gt (List.foldl (insertRev gt) [] (l.take i)) l[i]).reverse
          = (List.foldl (insertRev gt) [] (l.take i ++ [l[i]])).reverse
      rw [List.foldl_append]
      rfl
    rw [hnew]
    exact ih (i + 1) (by omega)

theorem insertion_sort_idx_eq (gt : α → α → Bool) (l : List α) :
    insertion_sort_idx gt l = some (insertion_sort gt l) := by
  cases l with
  | nil => rfl
  | cons a t =>
    unfold insertion_sort_idx
    have hlen : (a :: t).length - 1 = t.length := by simp
    rw [hlen]
    have hinit : a :: t = insertion_sort gt ((a :: t).take 1) ++ (a :: t).drop 1 := rfl
    conv_lhs => rw [hinit]
    exact foldlM_insInner_eq gt (a :: t) t.length 1 (by simp; omega)

theorem sortedAdj_of_pairwise [Preorder α] (l : List α)
    (h : List.Pairwise (· ≤ ·) l) : sortedAdj l := by
  intro i hi
  exact List.pairwise_iff_get.mp h ⟨i, Nat.lt_of_succ_lt hi⟩ ⟨i + 1, hi⟩
    (by simp [Fin.lt_def])

/-! The claim theorems. -/

/-- C1: for every input over a totally ordered element type, after any of
bubble_sort, insertion_sort or merge_sort returns, the output is
non-decreasing: every element is at most its right neighbour. For
bubble_sort the conclusion is conditional on the call returning (on the
empty slice it panics, see C3). -/
theorem C1_sorted_output [LinearOrder α] :
    (∀ l out : List α, bubble_sort gtb l = some out → sortedAdj out)
    ∧ (∀ l : List α, sortedAdj (insertion_sort gtb l))
    ∧ (∀ l : List α, sortedAdj (merge_sort ltb l)) :=
  ⟨fun l out h => sortedAdj_of_pairwise out (bubble_sort_sorted l out h),
   fun l => sortedAdj_of_pairwise _ (insertion_sort_sorted l),
   fun l => sortedAdj_of_pairwise _ (merge_sort_sorted l)⟩

theorem C1_witness : sortedAdj ([1, 2] : List ℤ) :=
  C1_sorted_output.1 [2, 1] [1, 2] (by rfl)

/-- C2: for every input sequence and every comparison function (so in
particular for elements that are only partially ordered), the output of each
sorting routine has exactly the multiset of elements of the input. For
bubble_sort the conclusion is conditional on the call returning. -/
theorem C2_permutation :
    (∀ (gt : α → α → Bool) (l out : List α), bubble_sort gt l = some out →
        (out : Multiset α) = (l : Multiset α))
    ∧ (∀ (gt : α → α → Bool) (l : List α),
        (insertion_sort gt l : Multiset α) = (l : Multiset α))
    ∧ (∀ (lt : α → α → Bool) (l : List α),
        (merge_sort lt l : Multiset α) = (l : Multiset α)) :=
  ⟨fun gt l out h => Multiset.coe_eq_coe.mpr (bubble_sort_post gt l out h).1,
   fun gt l => Multiset.coe_eq_coe.mpr (insertion_sort_perm gt l),
   fun lt l => Multiset.coe_eq_coe.mpr (merge_sort_perm lt l)⟩

theorem C2_witness : (([1, 2] : List ℤ) : Multiset ℤ) = (([2, 1] : List ℤ) : Multiset ℤ) :=
  C2_permutation.1 gtb [2, 1] [1, 2] (by rfl)

/-- C3: insertion_sort and merge_sort return the empty and singleton
sequences unchanged, and bubble_sort returns singletons unchanged; but on
the empty slice bubble_sort does NOT return: the bound list.len() - 1 at
line 19 of mod.rs underflows (usize), so the call panics, modelled by none.
This contradicts the claim, which is a bug in the code (the spec explicitly
makes the empty sequence a legal input of all three routines). -/
theorem C3_empty_singleton [LinearOrder α] :
    bubble_sort (gtb : α → α → Bool) [] = none
    ∧ insertion_sort (gtb : α → α → Bool) [] = []
    ∧ merge_sort (ltb : α → α → Bool) [] = []
    ∧ (∀ x : α, bubble_sort gtb [x] = some [x])
    ∧ (∀ x : α, insertion_sort gtb [x] = [x])
    ∧ (∀ x : α, merge_sort ltb [x] = [x]) := by
  refine ⟨rfl, rfl, by rw [merge_sort]; simp, fun x => rfl, fun x => rfl, fun x => ?_⟩
  rw [merge_sort]
  simp

/-- C4: in the merge step, with both halves non-empty, the element is taken
from the left half exactly when its head is strictly less than the head of
the right half; otherwise, ties included, it is taken from the right half. -/
theorem C4_merge_tie [LinearOrder α] (a b : α) (ls rs : List α) :
    (a < b → merge ltb (a :: ls) (b :: rs) = a :: merge ltb ls (b :: rs))
    ∧ (b ≤ a → merge ltb (a :: ls) (b :: rs) = b :: merge ltb (a :: ls) rs) := by
  constructor
  · intro h
    rw [merge]
    simp [ltb, h]
  · intro h
    rw [merge]
    simp [ltb, not_lt.mpr h]

theorem C4_witness :
    merge ltb ((5 : ℤ) :: [7]) (5 :: [6]) = 5 :: merge ltb ((5 : ℤ) :: [7]) [6]
    ∧ merge ltb ((3 : ℤ) :: [7]) (5 :: [6]) = 3 :: merge ltb [7] ((5 : ℤ) :: [6]) :=
  ⟨(C4_merge_tie 5 5 [7] [6]).2 (by decide),
   (C4_merge_tie 3 5 [7] [6]).1 (by decide)⟩

/-- C5: bubble_sort and insertion_sort are stable. Elements that compare
equal are modelled by a key function: the comparison looks only at the key,
so distinct elements can carry equal keys. For every key value v, the
subsequence of elements whose key is v is exactly preserved, because a swap
or shift happens only on strict greater-than of keys, never between equal
keys. For bubble_sort the conclusion is conditional on the call returning. -/
theorem C5_stable [LinearOrder β] (key : α → β) (v : β) :
    (∀ l out : List α, bubble_sort (fun a b => decide (key b < key a)) l = some out →
        out.filter (fun x => decide (key x = v)) = l.filter (fun x => decide (key x = v)))
    ∧ (∀ l : List α,
        (insertion_sort (fun a b => decide (key b < key a)) l).filter
            (fun x => decide (key x = v))
          = l.filter (fun x => decide (key x = v))) := by
  have hcomp : ∀ a b : α, decide (key b < key a) = true →
      decide (key a = v) = true → decide (key b = v) = true → False := by
    intro a b hab ha hb
    rw [decide_eq_true_eq] at hab ha hb
    rw [ha, hb] at hab
    exact lt_irrefl v hab
  exact ⟨fun l out h => bubble_sort_filter _ _ hcomp l out h,
    fun l => insertion_sort_filter _ _ hcomp l⟩

theorem C5_witness :
    ([((1 : ℤ), (1 : ℕ)), (1, 3), (2, 0), (2, 2)] : List (ℤ × ℕ)).filter
        (fun x => decide (x.1 = 1))
      = ([(2, 0), (1, 1), (2, 2), (1, 3)] : List (ℤ × ℕ)).filter
        (fun x => decide (x.1 = 1)) :=
  (C5_stable Prod.fst 1).1 [(2, 0), (1, 1), (2, 2), (1, 3)]
    [(1, 1), (1, 3), (2, 0), (2, 2)] (by rfl)

/-- C6: on every NON-empty input over a totally ordered type, bubble_sort
reaches, after finitely many passes, a pass that completes with zero swaps
and returns its result. On the empty slice, however, the code panics before
any pass completes (the bound list.len() - 1 underflows), which contradicts
the claim as stated: a code bug, see C3. -/
theorem C6_termination [LinearOrder α] :
    bubble_sort (gtb : α → α → Bool) [] = none
    ∧ (∀ l : List α, l ≠ [] → ∃ out, bubble_sort gtb l = some out
        ∧ (bubblePass gtb out).2 = false) := by
  refine ⟨rfl, fun l hne => ?_⟩
  obtain ⟨out, hout⟩ := bubble_sort_some gtb gtb_asymm l hne
  exact ⟨out, hout, (bubble_sort_post gtb l out hout).2⟩

theorem C6_witness :
    ∃ out, bubble_sort gtb ([3, 1, 2] : List ℤ) = some out
      ∧ (bubblePass gtb out).2 = false :=
  C6_termination.2 [3, 1, 2] (by decide)

/-- C7: at the assert site of merge_sort (reached exactly when the input has
length at least two), the merge of the two recursively sorted halves has
exactly the length of the input, so the internal length assertion never
fails. -/
theorem C7_merge_len (lt : α → α → Bool) (l : List α) (h : 2 ≤ l.length) :
    (merge lt (merge_sort lt (l.take (l.length / 2)))
        (merge_sort lt (l.drop (l.length / 2)))).length = l.length := by
  rw [merge_length, merge_sort_length, merge_sort_length, List.length_take,
    List.length_drop]
  omega

theorem C7_witness :
    (merge ltb (merge_sort ltb (([3, 1, 4, 2] : List ℤ).take
          (([3, 1, 4, 2] : List ℤ).length / 2)))
        (merge_sort ltb (([3, 1, 4, 2] : List ℤ).drop
          (([3, 1, 4, 2] : List ℤ).length / 2)))).length
      = ([3, 1, 4, 2] : List ℤ).length :=
  C7_merge_len ltb [3, 1, 4, 2] (by decide)

/-- C8 counterexample: the empty sequence is sorted, yet bubble_sort does
not leave it as it was: the call panics (modelled by none), so the claim as
stated is false for bubble_sort on the already-sorted input []. -/
theorem C8_cex :
    List.Pairwise (· ≤ ·) ([] : List ℤ)
    ∧ bubble_sort gtb ([] : List ℤ) ≠ some [] :=
  ⟨List.Pairwise.nil, by decide⟩

/-- C8 amended: on every already-sorted input, insertion_sort and merge_sort
return the sequence exactly as it was, and so does bubble_sort whenever the
input is non-empty (on the sorted empty input bubble_sort panics, see
C8_cex). -/
theorem C8_idempotent [LinearOrder α] (l : List α)
    (hs : List.Pairwise (· ≤ ·) l) :
    (l ≠ [] → bubble_sort gtb l = some l)
    ∧ insertion_sort gtb l = l
    ∧ merge_sort ltb l = l := by
  refine ⟨fun hne => bubble_sort_of_sorted l hs hne, ?_, ?_⟩
  · exact List.eq_of_perm_of_sorted (insertion_sort_perm gtb l)
      (insertion_sort_sorted l) hs
  · exact List.eq_of_perm_of_sorted (merge_sort_perm ltb l)
      (merge_sort_sorted l) hs

theorem C8_witness :
    bubble_sort gtb ([1, 2, 2] : List ℤ) = some [1, 2, 2]
    ∧ insertion_sort gtb ([1, 2, 2] : List ℤ) = [1, 2, 2]
    ∧ merge_sort ltb ([1, 2, 2] : List ℤ) = [1, 2, 2] :=
  ⟨(C8_idempotent [1, 2, 2] (by decide)).1 (by decide),
   (C8_idempotent [1, 2, 2] (by decide)).2.1,
   (C8_idempotent [1, 2, 2] (by decide)).2.2⟩

/-- C9 counterexample: on the empty input bubble_sort produces no final
sequence at all (the call panics, modelled by none) while insertion_sort
returns [], so the three routines do not all produce the same final
sequence on every input. -/
theorem C9_cex :
    bubble_sort gtb ([] : List ℤ) = none
    ∧ insertion_sort gtb ([] : List ℤ) = [] :=
  ⟨rfl, rfl⟩

/-- C9 amended: on every NON-empty input over a totally ordered element
type, the three routines produce the same final sequence of element values
(equal keys may sit in different original copies, but the value sequences
coincide). -/
theorem C9_agreement [LinearOrder α] (l : List α) (hne : l ≠ []) :
    ∃ out, bubble_sort gtb l = some out
      ∧ insertion_sort gtb l = out ∧ merge_sort ltb l = out := by
  obtain ⟨out, hout⟩ := bubble_sort_some gtb gtb_asymm l hne
  have hperm := (bubble_sort_post gtb l out hout).1
  have hsor := bubble_sort_sorted l out hout
  refine ⟨out, hout, ?_, ?_⟩
  · exact List.eq_of_perm_of_sorted ((insertion_sort_perm gtb l).trans hperm.symm)
      (insertion_sort_sorted l) hsor
  · exact List.eq_of_perm_of_sorted ((merge_sort_perm ltb l).trans hperm.symm)
      (merge_sort_sorted l) hsor

theorem C9_witness :
    ∃ out, bubble_sort gtb ([3, 1, 2] : List ℤ) = some out
      ∧ insertion_sort gtb ([3, 1, 2] : List ℤ) = out
      ∧ merge_sort ltb ([3, 1, 2] : List ℤ) = out :=
  C9_agreement [3, 1, 2] (by decide)

/-- C10: the index-level model of insertion_sort, in which every slice
access is explicit and an out-of-bounds access yields none, never returns
none: the guard on the loop counter keeps every read of list at j - 1 and
j in bounds for every input, the empty slice included. It moreover returns
exactly the result of the structural model of insertion_sort. -/
theorem C10_idx_total (gt : α → α → Bool) (l : List α) :
    insertion_sort_idx gt l = some (insertion_sort gt l) :=
  insertion_sort_idx_eq gt l

end Dsa
